import Mathlib

/-!
Verification development for the RAG backend's core pipeline:
text chunking (`create_document_chunks`), document ingestion
(`process_document`), embedding production (`create_embedding`),
hybrid-search fusion (`_combine_search_results`), the hybrid search
endpoint's weight validation, and context-window optimization
(`optimize_context`).

Python text is modelled as `List Char`; Python `float` scores and
weights as `ℚ`; fallible or possibly diverging code as `Option`
(a fuel parameter bounds the chunking loop, whose termination is
itself under scrutiny). All definitions are transcribed from
`app/tasks/document_processing.py`, `app/tasks/vector_embedding.py`,
`app/services/rag_service.py`, `app/services/search_service.py` and
`app/api/v1/endpoints/search.py`.
-/

namespace RAG

/-- Whitespace characters stripped by Python's `str.strip()` (ASCII part). -/
def isPySpace (c : Char) : Bool :=
  c = ' ' || c = '\t' || c = '\n' || c = '\x0d' || c = Char.ofNat 11 || c = Char.ofNat 12

/-- Python `s.strip()`: drop leading and trailing whitespace. -/
def pyStrip (l : List Char) : List Char :=
  ((l.dropWhile isPySpace).reverse.dropWhile isPySpace).reverse

/-- Python slice `t[s:e]` (for `s ≤ e`; clamps at the end of the string). -/
def pySlice (t : List Char) (s e : Nat) : List Char :=
  (t.drop s).take (e - s)

/-- Whether a character is a chunk break character: the code takes
`max(text.rfind(' ', start, end), text.rfind('\n', start, end))`,
which is the last position in `[start, end)` holding a space or a newline. -/
def isBreakChar (c : Char) : Bool :=
  c = ' ' || c = '\n'

/-- Largest index `i` with `s ≤ i < e`, `i` in range of `t`, and
`isBreakChar t[i]`; `none` if there is no such index. Models
`max(text.rfind(' ', s, e), text.rfind('\n', s, e))` with `-1 ↦ none`. -/
def lastBreak : List Char → Nat → Nat → Nat → Option Nat
  | [], _, _, _ => none
  | c :: rest, i, s, e =>
    match lastBreak rest (i + 1) s e with
    | some j => some j
    | none => if s ≤ i ∧ i < e ∧ isBreakChar c then some i else none

/-- The cut position of one loop pass:

  end = start + chunk_size
  if end < len(text):
      break_point = max(text.rfind(' ', start, end), text.rfind('\n', start, end))
      if break_point > start: end = break_point + 1
-/
def chunkEnd (t : List Char) (chunk_size start : Nat) : Nat :=
  if start + chunk_size < t.length then
    match lastBreak t 0 start (start + chunk_size) with
    | some bp => if start < bp then bp + 1 else start + chunk_size
    | none => start + chunk_size
  else start + chunk_size

/-- The advancement `start = end - overlap; if start <= 0: start = end` of the
loop; with Python ints, `end - overlap ≤ 0` is exactly `end ≤ overlap`. -/
def nextStart (overlap e : Nat) : Nat :=
  if e ≤ overlap then e else e - overlap

/-- The `while start < len(text)` loop of `create_document_chunks`
(document_processing.py, lines 216–238), bounded by `fuel`; `none` means
the fuel ran out before the loop finished:

  while start < len(text):
      end = chunkEnd ...
      chunk = text[start:end].strip()
      if chunk: chunks.append(chunk)
      start = nextStart ...
-/
def chunksAux (t : List Char) (chunk_size overlap : Nat) : Nat → Nat → Option (List (List Char))
  | 0, _ => none
  | fuel + 1, start =>
    if start < t.length then
      let e := chunkEnd t chunk_size start
      let chunk := pyStrip (pySlice t start e)
      (chunksAux t chunk_size overlap fuel (nextStart overlap e)).map
        (fun rest => if chunk ≠ [] then chunk :: rest else rest)
    else some []

/-- Transcription of `create_document_chunks(text, chunk_size, overlap)` from
document_processing.py lines 207–242, with explicit fuel for the loop.
The guarded `try` around the body can raise nothing in this pure loop,
so the `except` fallback is unreachable and not modelled. -/
def create_document_chunks (t : List Char) (chunk_size overlap : Nat) (fuel : Nat) :
    Option (List (List Char)) :=
  if t = [] then some [] else chunksAux t chunk_size overlap fuel 0

/-- Document status values surfaced by the pipeline. -/
inductive DocStatus
  | pending
  | processing
  | completed
  | failed
deriving DecidableEq, Repr

/-- The chunk rows persisted for one document: `(chunk_index, content)` pairs.
`DocumentService.create_document_chunk` (document_service.py lines 249–275) is
a plain insert — `models/document.py` line 70 puts no uniqueness constraint on
`chunk_index` — so a write is modelled as an append. -/
abbrev ChunkDB := List (Nat × List Char)

/-- Transcription of `process_document` (document_processing.py lines 21–82) acting on the chunk
rows of one document. The outcome of `extract_text_from_document` is passed in:
`none` models a missing file, an unsupported type, or an extraction exception
(all three return `None`); the task then checks `if not text_content`, which
also catches the empty string. Chunking is invoked as
`create_document_chunks(text_content, chunk_size)`, i.e. with overlap `0`, and
the chunks are written by `enumerate` index before the status moves to
`completed`. The result is `none` when the chunking loop exhausts its fuel. -/
def process_document (db : ChunkDB) (extracted : Option (List Char))
    (chunk_size fuel : Nat) : Option (DocStatus × ChunkDB) :=
  match extracted with
  | none => some (.failed, db)
  | some t =>
    if t = [] then some (.failed, db)
    else
      (create_document_chunks t chunk_size 0 fuel).map
        (fun chunks => (.completed, db ++ chunks.enum))

/-- Transcription of `create_embedding` (vector_embedding.py lines 123–148). The md5 hex digest
of the text is abstracted as a pure function `digest`; the code overwrites
positions `0 .. min(len(digest), dim) - 1` of the zero vector of length `dim`
with `(ord(char) - ord('a')) / 26.0`. Empty text returns `None` before any of
that happens. -/
def create_embedding (digest : List Char → List Char) (dim : Nat)
    (t : List Char) : Option (List ℚ) :=
  if t = [] then none
  else
    some ((((digest t).take (min (digest t).length dim)).enum).foldl
      (fun v p => v.set p.1 (((p.2.toNat : ℚ) - ('a'.toNat : ℚ)) / 26))
      (List.replicate dim 0))

/-- Transcription of `create_embeddings_batch` (vector_embedding.py lines 151–165): one
`create_embedding` call per text, in order. -/
def create_embeddings_batch (digest : List Char → List Char) (dim : Nat)
    (texts : List (List Char)) : List (Option (List ℚ)) :=
  texts.map (create_embedding digest dim)

/-- The fields of `SearchResult` (schemas/search.py) that fusion and context
packing read: chunk id, content, similarity score. -/
structure SearchResult where
  chunk_id : Nat
  content : List Char
  similarity_score : ℚ
deriving DecidableEq, Repr

/-- One value of the `combined_dict` built by `_combine_search_results`
(search_service.py lines 348–391). -/
structure FusionEntry where
  result : SearchResult
  semantic_score : ℚ
  vector_score : ℚ
  combined_score : ℚ
deriving DecidableEq, Repr

/-- Python `d[k]` / `k in d` for the insertion-ordered dict, on an
association list. -/
def dictFind (k : Nat) : List (Nat × FusionEntry) → Option FusionEntry
  | [] => none
  | (k', v) :: rest => if k' = k then some v else dictFind k rest

/-- Python `d[k] = v`: replace in place when the key exists (keeping its dict
position), else append at the end. -/
def dictSet (k : Nat) (v : FusionEntry) :
    List (Nat × FusionEntry) → List (Nat × FusionEntry)
  | [] => [(k, v)]
  | (k', v') :: rest =>
    if k' = k then (k, v) :: rest else (k', v') :: dictSet k v rest

/-- In-place mutation of the entry stored at key `k` (keys are unique, so
rewriting the first hit is the dict's mutation). -/
def dictUpdate (k : Nat) (f : FusionEntry → FusionEntry) :
    List (Nat × FusionEntry) → List (Nat × FusionEntry)
  | [] => []
  | (k', v) :: rest =>
    if k' = k then (k', f v) :: rest else (k', v) :: dictUpdate k f rest

/-- First loop of `_combine_search_results`: every semantic result is stored
with `semantic_score = similarity * wSem`, `vector_score = 0`, and
`combined_score = similarity * wSem`. -/
def semanticPhase (wSem : ℚ) (sem : List SearchResult) :
    List (Nat × FusionEntry) :=
  sem.foldl
    (fun d r =>
      dictSet r.chunk_id
        ⟨r, r.similarity_score * wSem, 0, r.similarity_score * wSem⟩ d)
    []

/-- Body of the second loop of `_combine_search_results` for one vector
result: update the existing entry (`vector_score = similarity * wVec`,
`combined_score += similarity * wVec`) or insert a fresh one. -/
def vectorStep (wVec : ℚ) (d : List (Nat × FusionEntry)) (r : SearchResult) :
    List (Nat × FusionEntry) :=
  if (dictFind r.chunk_id d).isSome then
    dictUpdate r.chunk_id
      (fun e =>
        ⟨e.result, e.semantic_score, r.similarity_score * wVec,
          e.combined_score + r.similarity_score * wVec⟩) d
  else
    dictSet r.chunk_id
      ⟨r, 0, r.similarity_score * wVec, r.similarity_score * wVec⟩ d

/-- The `combined_dict` of `_combine_search_results` after both loops. -/
def combinedDict (sem vec : List SearchResult) (wSem wVec : ℚ) :
    List (Nat × FusionEntry) :=
  vec.foldl (vectorStep wVec) (semanticPhase wSem sem)

/-- Transcription of `_combine_search_results` (search_service.py lines 348–391): build the
combined dict, sort its values by descending `combined_score` (Python's
`sorted` is stable), truncate to `limit`, and return the stored original
result objects. -/
def combine_search_results (sem vec : List SearchResult) (wSem wVec : ℚ)
    (limit : Nat) : List SearchResult :=
  ((((combinedDict sem vec wSem wVec).map Prod.snd).insertionSort
      (fun a b => b.combined_score ≤ a.combined_score)).take limit).map
    (·.result)

/-- Error raised by the HTTP layer. -/
inductive EndpointError
  | badRequest (detail : String)
deriving DecidableEq, Repr

/-- The `hybrid_search` endpoint (api/v1/endpoints/search.py lines 72–105):
`if abs(semantic_weight + vector_weight - 1.0) > 0.01` raise a 400 before the
search service is even constructed; otherwise delegate to
`SearchService.hybrid_search`, abstracted here as `search`. -/
def hybrid_search_endpoint {α : Type} (search : ℚ → ℚ → α)
    (wSem wVec : ℚ) : Except EndpointError α :=
  if 1 / 100 < |wSem + wVec - 1| then
    .error (.badRequest "Semantic and vector weights must sum to 1.0")
  else
    .ok (search wSem wVec)

/-- The greedy accumulation loop of `optimize_context` (rag_service.py lines
292–307), with `total` the running length. A result fitting whole is kept; a
result overflowing the budget is truncated to `content[:remaining] + "..."`
and ends the loop when more than 100 characters remain, otherwise the loop
ends without it. -/
def packLoop (maxLen : Nat) : List SearchResult → Nat → List SearchResult
  | [], _ => []
  | r :: rest, total =>
    if total + r.content.length ≤ maxLen then
      r :: packLoop maxLen rest (total + r.content.length)
    else
      if 100 < maxLen - total then
        [{ r with content := r.content.take (maxLen - total) ++ "...".toList }]
      else []

/-- Transcription of `optimize_context` (rag_service.py lines 281–315): return `[]` for an
empty context, else sort by descending similarity score (stable) and pack
greedily. The `except` fallback is unreachable for this pure loop. -/
def optimize_context (context : List SearchResult) (maxLen : Nat) :
    List SearchResult :=
  if context = [] then []
  else
    packLoop maxLen
      (context.insertionSort
        (fun a b => b.similarity_score ≤ a.similarity_score))
      0

/-- Total content length of a result list: `sum(len(r.content) for r in l)`. -/
def contextLength (l : List SearchResult) : Nat :=
  (l.map (·.content.length)).sum

/-! Helper lemmas about stripping, break search and slices. -/

theorem dropWhile_length_le (p : Char → Bool) :
    ∀ l : List Char, (l.dropWhile p).length ≤ l.length := by
  intro l
  induction l with
  | nil => simp
  | cons c t ih =>
    by_cases h : p c
    · rw [List.dropWhile_cons_of_pos h]
      exact le_trans ih (Nat.le_succ _)
    · rw [List.dropWhile_cons_of_neg h]

theorem dropWhile_idem (p : Char → Bool) :
    ∀ l : List Char, (l.dropWhile p).dropWhile p = l.dropWhile p := by
  intro l
  induction l with
  | nil => rfl
  | cons c t ih =>
    by_cases h : p c
    · rw [List.dropWhile_cons_of_pos h, ih]
    · rw [List.dropWhile_cons_of_neg h, List.dropWhile_cons_of_neg h]

theorem dropWhile_exists_append (p : Char → Bool) :
    ∀ l : List Char, ∃ u, u ++ l.dropWhile p = l := by
  intro l
  induction l with
  | nil => exact ⟨[], rfl⟩
  | cons c t ih =>
    by_cases h : p c
    · obtain ⟨u, hu⟩ := ih
      exact ⟨c :: u, by rw [List.dropWhile_cons_of_pos h, List.cons_append, hu]⟩
    · exact ⟨[], by rw [List.dropWhile_cons_of_neg h, List.nil_append]⟩

theorem dropWhile_rev_fix (p : Char → Bool) (x : List Char)
    (hx : x.dropWhile p = x) :
    ((x.reverse.dropWhile p).reverse).dropWhile p = (x.reverse.dropWhile p).reverse := by
  obtain ⟨u, hu⟩ := dropWhile_exists_append p x.reverse
  have hx2 : (x.reverse.dropWhile p).reverse ++ u.reverse = x := by
    have h := congrArg List.reverse hu
    rw [List.reverse_append, List.reverse_reverse] at h
    exact h
  cases hB : (x.reverse.dropWhile p).reverse with
  | nil => rfl
  | cons c bs =>
    have hxc : x = c :: (bs ++ u.reverse) := by
      rw [← hx2, hB, List.cons_append]
    have hpc : ¬ p c = true := by
      intro hpc
      have h1 : x.length ≤ (bs ++ u.reverse).length := by
        calc x.length = (x.dropWhile p).length := by rw [hx]
          _ = ((bs ++ u.reverse).dropWhile p).length := by
              rw [hxc, List.dropWhile_cons_of_pos hpc]
          _ ≤ (bs ++ u.reverse).length := dropWhile_length_le p _
      rw [hxc] at h1
      simp at h1
    rw [List.dropWhile_cons_of_neg hpc]

theorem pyStrip_dropWhile_fix (l : List Char) :
    (pyStrip l).dropWhile isPySpace = pyStrip l :=
  dropWhile_rev_fix isPySpace (l.dropWhile isPySpace) (dropWhile_idem _ _)

theorem pyStrip_idem (l : List Char) : pyStrip (pyStrip l) = pyStrip l := by
  show ((((pyStrip l).dropWhile isPySpace).reverse).dropWhile isPySpace).reverse = pyStrip l
  rw [pyStrip_dropWhile_fix l]
  show (((((l.dropWhile isPySpace).reverse.dropWhile isPySpace).reverse).reverse).dropWhile
      isPySpace).reverse = pyStrip l
  rw [List.reverse_reverse, dropWhile_idem]
  rfl

theorem pyStrip_length_le (l : List Char) : (pyStrip l).length ≤ l.length := by
  show ((((l.dropWhile isPySpace).reverse).dropWhile isPySpace).reverse).length ≤ l.length
  rw [List.length_reverse]
  calc (((l.dropWhile isPySpace).reverse).dropWhile isPySpace).length
      ≤ (l.dropWhile isPySpace).reverse.length := dropWhile_length_le _ _
    _ = (l.dropWhile isPySpace).length := List.length_reverse _
    _ ≤ l.length := dropWhile_length_le _ _

theorem lastBreak_bounds :
    ∀ (t : List Char) (i s e j : Nat), lastBreak t i s e = some j → s ≤ j ∧ j < e := by
  intro t
  induction t with
  | nil => intro i s e j h; simp [lastBreak] at h
  | cons c rest ih =>
    intro i s e j h
    unfold lastBreak at h
    cases hrec : lastBreak rest (i + 1) s e with
    | some j' =>
      rw [hrec] at h
      cases h
      exact ih _ _ _ _ hrec
    | none =>
      rw [hrec] at h
      by_cases hcond : s ≤ i ∧ i < e ∧ isBreakChar c
      · rw [if_pos hcond] at h
        cases h
        exact ⟨hcond.1, hcond.2.1⟩
      · rw [if_neg hcond] at h
        cases h

theorem pySlice_length_le (t : List Char) (s e : Nat) :
    (pySlice t s e).length ≤ e - s := by
  show ((t.drop s).take (e - s)).length ≤ e - s
  rw [List.length_take]
  exact min_le_left _ _

theorem chunkEnd_le (t : List Char) (cs start : Nat) :
    chunkEnd t cs start ≤ start + cs := by
  unfold chunkEnd
  by_cases hlt : start + cs < t.length
  · rw [if_pos hlt]
    cases hlb : lastBreak t 0 start (start + cs) with
    | some bp =>
      have hb := lastBreak_bounds t 0 start (start + cs) bp hlb
      show (if start < bp then bp + 1 else start + cs) ≤ start + cs
      by_cases hst : start < bp
      · rw [if_pos hst]
        omega
      · rw [if_neg hst]
    | none => exact le_refl _
  · rw [if_neg hlt]

theorem chunk_piece_length_le (t : List Char) (cs start : Nat) :
    (pyStrip (pySlice t start (chunkEnd t cs start))).length ≤ cs := by
  calc (pyStrip (pySlice t start (chunkEnd t cs start))).length
      ≤ (pySlice t start (chunkEnd t cs start)).length := pyStrip_length_le _
    _ ≤ chunkEnd t cs start - start := pySlice_length_le _ _ _
    _ ≤ cs := by have := chunkEnd_le t cs start; omega

/-- Every chunk emitted by the loop is the stripped slice of some window and
passed the non-emptiness guard. -/
theorem chunksAux_mem (t : List Char) (cs ov : Nat) :
    ∀ (fuel start : Nat) (l : List (List Char)), chunksAux t cs ov fuel start = some l →
      ∀ c ∈ l, ∃ s, c = pyStrip (pySlice t s (chunkEnd t cs s)) ∧ c ≠ [] := by
  intro fuel
  induction fuel with
  | zero => intro start l h; cases h
  | succ n ih =>
    intro start l h
    simp only [chunksAux] at h
    by_cases hs : start < t.length
    · rw [if_pos hs] at h
      cases hrec : chunksAux t cs ov n (nextStart ov (chunkEnd t cs start)) with
      | none => rw [hrec] at h; cases h
      | some rest =>
        rw [hrec] at h
        simp only [Option.map_some'] at h
        cases h
        intro c hc
        by_cases hch : pyStrip (pySlice t start (chunkEnd t cs start)) = []
        · rw [if_neg (by simpa using hch)] at hc
          exact ih _ _ hrec c hc
        · rw [if_pos (by simpa using hch)] at hc
          cases hc with
          | head => exact ⟨start, rfl, hch⟩
          | tail _ hc' => exact ih _ _ hrec c hc'
    · rw [if_neg hs] at h
      cases h
      intro c hc
      cases hc

/-- C2: the claim asserts the chunking loop terminates for every text and all
`0 ≤ overlap < chunk_size` with `chunk_size > 0`. The code's only forced
advancement is `if start <= 0: start = end`, which does not fire when the
word-boundary cut leaves `end - overlap` positive but not past the previous
start: on `"abcde fghijk"` with `chunk_size = 10`, `overlap = 5` the loop
reaches `start = 1` and stays there forever. No amount of fuel finishes
the loop. -/
theorem create_document_chunks_nonterminating :
    ∀ fuel : Nat, create_document_chunks "abcde fghijk".toList 10 5 fuel = none := by
  have key : ∀ n : Nat, chunksAux "abcde fghijk".toList 10 5 n 1 = none := by
    intro n
    induction n with
    | zero => rfl
    | succ m ih =>
      rw [show chunksAux "abcde fghijk".toList 10 5 (m + 1) 1
          = (chunksAux "abcde fghijk".toList 10 5 m 1).map
              (fun rest => "bcde".toList :: rest) from rfl, ih]
      rfl
  intro fuel
  cases fuel with
  | zero => rfl
  | succ n =>
    rw [show create_document_chunks "abcde fghijk".toList 10 5 (n + 1)
        = (chunksAux "abcde fghijk".toList 10 5 n 1).map
            (fun rest => "abcde".toList :: rest) from rfl, key n]
    rfl

/-- C6 (amended): the empty text yields the empty list, and a non-empty text
strictly shorter than `chunk_size` yields exactly one chunk (its own strip)
provided the stripped text is non-empty and `chunk_size - overlap` is at
least the text length. -/
theorem create_document_chunks_empty_and_short (t : List Char) (cs ov fuel : Nat)
    (hfuel : 2 ≤ fuel) (hlen : t.length < cs) (hov : ov < cs)
    (hstrip : pyStrip t ≠ []) (hfit : t.length ≤ cs - ov) :
    create_document_chunks [] cs ov fuel = some [] ∧
    create_document_chunks t cs ov fuel = some [pyStrip t] := by
  constructor
  · rfl
  · have ht : t ≠ [] := by
      intro h
      exact hstrip (by rw [h]; rfl)
    obtain ⟨m, rfl⟩ : ∃ m, fuel = m + 2 := ⟨fuel - 2, by omega⟩
    unfold create_document_chunks
    rw [if_neg ht]
    have hend : chunkEnd t cs 0 = cs := by
      unfold chunkEnd
      rw [if_neg (by omega : ¬ 0 + cs < t.length)]
      omega
    have hslice : pySlice t 0 cs = t := by
      show (t.drop 0).take (cs - 0) = t
      rw [List.drop_zero]
      exact List.take_of_length_le (by omega)
    have hns : nextStart ov cs = cs - ov := by
      unfold nextStart
      rw [if_neg (by omega : ¬ cs ≤ ov)]
    simp only [chunksAux]
    rw [if_pos (List.length_pos.mpr ht), hend, hslice, hns,
      if_neg (by omega : ¬ cs - ov < t.length)]
    simp only [Option.map_some']
    rw [if_pos (by simpa using hstrip)]

/-- C6 counterexample: `"   "` (three spaces) is non-empty, shorter than
`maxSize = 10`, and `overlap = 0 < maxSize`, yet the code returns zero
chunks, not one: the whitespace-only window strips to nothing and the
`if chunk:` guard drops it. -/
theorem create_document_chunks_short_counterexample :
    ([' ', ' ', ' '] : List Char) ≠ [] ∧
    ([' ', ' ', ' '] : List Char).length < 10 ∧ (0 : Nat) < 10 ∧
    create_document_chunks [' ', ' ', ' '] 10 0 5 = some [] ∧
    (create_document_chunks [' ', ' ', ' '] 10 0 5).map List.length ≠ some 1 := by
  decide

/-- C6 witness: with two characters of non-whitespace text, fuel 2,
`maxSize = 10`, `overlap = 2`, both conjuncts evaluate as stated. -/
theorem create_document_chunks_empty_and_short_witness :
    create_document_chunks [] 10 2 2 = some [] ∧
    create_document_chunks ['h', 'i'] 10 2 2 = some [['h', 'i']] := by
  have h := create_document_chunks_empty_and_short ['h', 'i'] 10 2 2 (by decide) (by decide)
    (by decide) (by decide) (by decide)
  refine ⟨h.1, ?_⟩
  rw [h.2]
  rfl

/-- C7: every string in a list returned by `create_document_chunks` has
length at most `chunk_size` (each window slice spans at most `chunk_size`
characters and stripping only shortens it). -/
theorem create_document_chunks_length_le (t : List Char) (cs ov fuel : Nat)
    (hcs : 0 < cs) (hov : ov < cs) (l : List (List Char))
    (h : create_document_chunks t cs ov fuel = some l) :
    ∀ c ∈ l, c.length ≤ cs := by
  intro c hc
  unfold create_document_chunks at h
  by_cases ht : t = []
  · rw [if_pos ht] at h
    cases h
    cases hc
  · rw [if_neg ht] at h
    obtain ⟨s, hceq, hne⟩ := chunksAux_mem t cs ov fuel 0 l h c hc
    rw [hceq]
    exact chunk_piece_length_le t cs s

/-- C7 witness: the spec's own scenario, `maxSize = 10`, `overlap = 2`. -/
theorem create_document_chunks_length_le_witness :
    create_document_chunks "The quick brown fox jumps".toList 10 2 10
      = some ["The quick".toList, "k brown".toList, "n fox".toList, "x jumps".toList] ∧
    ("k brown".toList).length ≤ 10 := by
  refine ⟨by decide, ?_⟩
  exact create_document_chunks_length_le "The quick brown fox jumps".toList 10 2 10
    (by decide) (by decide)
    ["The quick".toList, "k brown".toList, "n fox".toList, "x jumps".toList]
    (by decide) "k brown".toList (by decide)

/-- C9: every string returned by `create_document_chunks` is non-empty and
equals its own strip — whitespace-only window slices are dropped by the
`if chunk:` guard and every kept chunk was stripped on creation. -/
theorem create_document_chunks_stripped (t : List Char) (cs ov fuel : Nat)
    (l : List (List Char)) (h : create_document_chunks t cs ov fuel = some l) :
    ∀ c ∈ l, c ≠ [] ∧ pyStrip c = c := by
  intro c hc
  unfold create_document_chunks at h
  by_cases ht : t = []
  · rw [if_pos ht] at h
    cases h
    cases hc
  · rw [if_neg ht] at h
    obtain ⟨s, hceq, hne⟩ := chunksAux_mem t cs ov fuel 0 l h c hc
    refine ⟨hne, ?_⟩
    rw [hceq]
    exact pyStrip_idem _

/-- C9 witness: a concrete run whose middle chunk is checked. -/
theorem create_document_chunks_stripped_witness :
    create_document_chunks "hello world".toList 5 0 10
      = some ["hello".toList, "worl".toList, "d".toList] ∧
    ("worl".toList ≠ [] ∧ pyStrip "worl".toList = "worl".toList) := by
  refine ⟨by decide, ?_⟩
  exact create_document_chunks_stripped "hello world".toList 5 0 10
    ["hello".toList, "worl".toList, "d".toList] (by decide) "worl".toList (by decide)

/-- C5: when extraction yields no text (missing file, unsupported type,
extraction exception — all returning `None`) or empty text (caught by
`if not text_content`), `process_document` ends with status `failed` and
writes no chunk rows: the chunk table is returned unchanged. -/
theorem process_document_failed_extraction (db : ChunkDB)
    (extracted : Option (List Char)) (cs fuel : Nat)
    (h : extracted = none ∨ extracted = some []) :
    process_document db extracted cs fuel = some (.failed, db) := by
  rcases h with h | h <;> subst h <;> rfl

/-- C5 witness: empty extracted text against a table that already holds a
row; the row set is untouched and the status is `failed`. -/
theorem process_document_failed_extraction_witness :
    process_document [(0, ['x'])] (some []) 1000 5 = some (.failed, [(0, ['x'])]) :=
  process_document_failed_extraction [(0, ['x'])] (some []) 1000 5 (Or.inr rfl)

/-- C8 failing run: `process_document` never removes or supersedes the prior
attempt's rows — it only appends a fresh `enumerate` of the chunks — so
re-processing the same 5-character document with default `chunk_size = 1000`
doubles the rows and makes `chunk_index` 0 appear twice. -/
theorem process_document_reingest_duplicates :
    process_document [] (some "hello".toList) 1000 5
      = some (.completed, [(0, "hello".toList)]) ∧
    process_document [(0, "hello".toList)] (some "hello".toList) 1000 5
      = some (.completed, [(0, "hello".toList), (0, "hello".toList)]) ∧
    ¬ (([(0, "hello".toList), (0, "hello".toList)] : ChunkDB).map Prod.fst).Nodup := by
  exact ⟨by decide, by decide, by decide⟩

/-- The fold writing the embedding values preserves the vector's length. -/
theorem embed_foldl_length (ps : List (Nat × Char)) :
    ∀ acc : List ℚ,
      (ps.foldl (fun v p => v.set p.1 (((p.2.toNat : ℚ) - ('a'.toNat : ℚ)) / 26)) acc).length
        = acc.length := by
  induction ps with
  | nil => intro acc; rfl
  | cons p rest ih =>
    intro acc
    rw [List.foldl_cons, ih, List.length_set]

/-- C10: `create_embedding` returns `None` exactly on empty text, otherwise a
vector of exactly the configured dimension; and it is deterministic — the
md5 digest is a pure function of the text, so two invocations on the same
text (as in a batch of two copies) return equal results. -/
theorem create_embedding_spec (digest : List Char → List Char) (dim : Nat)
    (t : List Char) :
    (create_embedding digest dim t = none ↔ t = []) ∧
    (∀ v, create_embedding digest dim t = some v → v.length = dim) ∧
    (∃ e, create_embeddings_batch digest dim [t, t] = [e, e]) := by
  refine ⟨?_, ?_, ⟨create_embedding digest dim t, rfl⟩⟩
  · unfold create_embedding
    by_cases h : t = []
    · rw [if_pos h]
      simp [h]
    · rw [if_neg h]
      simp [h]
  · intro v hv
    unfold create_embedding at hv
    by_cases h : t = []
    · rw [if_pos h] at hv
      cases hv
    · rw [if_neg h] at hv
      cases hv
      rw [embed_foldl_length, List.length_replicate]

/-- C10 witness: a two-character digest on a four-dimensional space; empty
text gives `None`, non-empty text a vector of length 4, and a batch of two
copies two equal entries. -/
theorem create_embedding_spec_witness :
    create_embedding (fun _ => ['a', 'b']) 4 [] = none ∧
    (create_embedding (fun _ => ['a', 'b']) 4 ['h', 'i']).map List.length = some 4 ∧
    create_embeddings_batch (fun _ => ['a', 'b']) 4 [['h', 'i'], ['h', 'i']]
      = [create_embedding (fun _ => ['a', 'b']) 4 ['h', 'i'],
         create_embedding (fun _ => ['a', 'b']) 4 ['h', 'i']] := by
  have h := create_embedding_spec (fun _ => ['a', 'b']) 4 ['h', 'i']
  refine ⟨(create_embedding_spec (fun _ => ['a', 'b']) 4 []).1.mpr rfl, ?_, rfl⟩
  cases hve : create_embedding (fun _ => ['a', 'b']) 4 ['h', 'i'] with
  | none => exact absurd (h.1.mp hve) (by decide)
  | some v => rw [Option.map_some', h.2.1 v hve]

/-- C4: the exposed hybrid search operation rejects weights whose sum is not
1.0 within tolerance 0.01 with a validation error, before performing any
search (the error branch never evaluates `search`); otherwise it runs the
search and returns its response. -/
theorem hybrid_search_endpoint_weight_validation {α : Type} (search : ℚ → ℚ → α)
    (wSem wVec : ℚ) :
    (1 / 100 < |wSem + wVec - 1| →
      hybrid_search_endpoint search wSem wVec
        = .error (.badRequest "Semantic and vector weights must sum to 1.0")) ∧
    (|wSem + wVec - 1| ≤ 1 / 100 →
      hybrid_search_endpoint search wSem wVec = .ok (search wSem wVec)) := by
  constructor
  · intro h
    unfold hybrid_search_endpoint
    rw [if_pos h]
  · intro h
    unfold hybrid_search_endpoint
    rw [if_neg (not_lt.mpr h)]

/-- C4 witness: the spec's scenario `wSem = 0.8, wVec = 0.3` (sum 1.1) is
rejected; the default `0.7, 0.3` goes through to the search. -/
theorem hybrid_search_endpoint_weight_validation_witness :
    hybrid_search_endpoint (fun _ _ => (0 : Nat)) (8 / 10) (3 / 10)
      = .error (.badRequest "Semantic and vector weights must sum to 1.0") ∧
    hybrid_search_endpoint (fun _ _ => (0 : Nat)) (7 / 10) (3 / 10) = .ok 0 := by
  constructor
  · refine (hybrid_search_endpoint_weight_validation (fun _ _ => (0 : Nat))
      (8 / 10) (3 / 10)).1 ?_
    rw [show (8 / 10 + 3 / 10 - 1 : ℚ) = 1 / 10 by norm_num,
      abs_of_nonneg (by norm_num : (0 : ℚ) ≤ 1 / 10)]
    norm_num
  · refine (hybrid_search_endpoint_weight_validation (fun _ _ => (0 : Nat))
      (7 / 10) (3 / 10)).2 ?_
    rw [show (7 / 10 + 3 / 10 - 1 : ℚ) = 0 by norm_num, abs_zero]
    norm_num

/-- The greedy loop, started within budget, never exceeds the budget by more
than the 3-character `"..."` marker of a truncated tail result. -/
theorem packLoop_budget (maxLen : Nat) :
    ∀ (rs : List SearchResult) (total : Nat), total ≤ maxLen →
      total + contextLength (packLoop maxLen rs total) ≤ maxLen + 3 := by
  intro rs
  induction rs with
  | nil =>
    intro total h
    simp only [packLoop, contextLength, List.map_nil, List.sum_nil]
    omega
  | cons r rest ih =>
    intro total h
    unfold packLoop
    by_cases h1 : total + r.content.length ≤ maxLen
    · rw [if_pos h1]
      have hrec := ih (total + r.content.length) h1
      simp only [contextLength, List.map_cons, List.sum_cons] at hrec ⊢
      omega
    · rw [if_neg h1]
      by_cases h2 : 100 < maxLen - total
      · rw [if_pos h2]
        simp only [contextLength, List.map_cons, List.map_nil, List.sum_cons, List.sum_nil]
        rw [List.length_append, List.length_take]
        have h3 : ("...".toList).length = 3 := rfl
        have h4 : min (maxLen - total) r.content.length ≤ maxLen - total := min_le_left _ _
        omega
      · rw [if_neg h2]
        simp only [contextLength, List.map_nil, List.sum_nil]
        omega

/-- C1 (amended): the total content length of `optimize_context(results, L)`
is at most `L + 3`: the budget is respected except for the 3-character
ellipsis marker `"..."` appended to a truncated final result (without
truncation the total stays within `L`). -/
theorem optimize_context_budget (context : List SearchResult) (maxLen : Nat) :
    contextLength (optimize_context context maxLen) ≤ maxLen + 3 := by
  unfold optimize_context
  by_cases h : context = []
  · rw [if_pos h]
    simp [contextLength]
  · rw [if_neg h]
    have hb := packLoop_budget maxLen
      (context.insertionSort (fun a b => b.similarity_score ≤ a.similarity_score)) 0
      (Nat.zero_le _)
    omega

/-- C1 counterexample: one result of 102 characters against `maxLength = 101`
is truncated to `content[:101] + "..."`, total length 104 > 101 — the claim's
bound `sum ≤ maxLength` fails exactly in the truncation case it includes. -/
theorem optimize_context_budget_counterexample :
    contextLength (optimize_context [⟨1, List.replicate 102 'X', 1⟩] 101) = 104 ∧
    ¬ contextLength (optimize_context [⟨1, List.replicate 102 'X', 1⟩] 101) ≤ 101 := by
  exact ⟨by decide, by decide⟩

/-! Association-list lemmas for the fusion dict. -/

theorem dictFind_dictSet_self (k : Nat) (v : FusionEntry) :
    ∀ d, dictFind k (dictSet k v d) = some v := by
  intro d
  induction d with
  | nil => simp [dictSet, dictFind]
  | cons p rest ih =>
    obtain ⟨k', v'⟩ := p
    by_cases h : k' = k
    · simp [dictSet, h, dictFind]
    · simp [dictSet, h, dictFind, ih]

theorem dictFind_dictSet_ne (k₀ : Nat) (v : FusionEntry) (k : Nat) (h : k ≠ k₀) :
    ∀ d, dictFind k (dictSet k₀ v d) = dictFind k d := by
  have hne : ¬ k₀ = k := fun he => h he.symm
  intro d
  induction d with
  | nil => simp [dictSet, dictFind, hne]
  | cons p rest ih =>
    obtain ⟨k', v'⟩ := p
    by_cases h' : k' = k₀
    · subst h'
      simp [dictSet, dictFind, hne]
    · simp [dictSet, h', dictFind, ih]

theorem dictFind_dictUpdate_self (k : Nat) (f : FusionEntry → FusionEntry) :
    ∀ d, dictFind k (dictUpdate k f d) = (dictFind k d).map f := by
  intro d
  induction d with
  | nil => rfl
  | cons p rest ih =>
    obtain ⟨k', v'⟩ := p
    by_cases h : k' = k
    · subst h
      simp [dictUpdate, dictFind]
    · simp [dictUpdate, dictFind, h, ih]

theorem dictFind_dictUpdate_ne (k₀ : Nat) (f : FusionEntry → FusionEntry) (k : Nat)
    (h : k ≠ k₀) : ∀ d, dictFind k (dictUpdate k₀ f d) = dictFind k d := by
  have hne : ¬ k₀ = k := fun he => h he.symm
  intro d
  induction d with
  | nil => rfl
  | cons p rest ih =>
    obtain ⟨k', v'⟩ := p
    by_cases h' : k' = k₀
    · subst h'
      simp [dictUpdate, dictFind, hne]
    · simp [dictUpdate, dictFind, h', ih]

theorem vectorStep_find_ne (wVec : ℚ) (d : List (Nat × FusionEntry))
    (r : SearchResult) (k : Nat) (h : r.chunk_id ≠ k) :
    dictFind k (vectorStep wVec d r) = dictFind k d := by
  unfold vectorStep
  by_cases hf : (dictFind r.chunk_id d).isSome
  · rw [if_pos hf, dictFind_dictUpdate_ne _ _ _ (Ne.symm h)]
  · rw [if_neg hf, dictFind_dictSet_ne _ _ _ (Ne.symm h)]

theorem foldl_dictFind_untouched
    (step : List (Nat × FusionEntry) → SearchResult → List (Nat × FusionEntry)) (k : Nat)
    (hstep : ∀ d r, r.chunk_id ≠ k → dictFind k (step d r) = dictFind k d) :
    ∀ (l : List SearchResult) (acc : List (Nat × FusionEntry)),
      (∀ r ∈ l, r.chunk_id ≠ k) →
      dictFind k (l.foldl step acc) = dictFind k acc := by
  intro l
  induction l with
  | nil => intro acc _; rfl
  | cons a rest ih =>
    intro acc hl
    rw [List.foldl_cons, ih _ (fun r hr => hl r (List.mem_cons_of_mem _ hr)),
      hstep acc a (hl a (List.mem_cons_self _ _))]

theorem semanticPhase_find_aux (wSem : ℚ) :
    ∀ (sem : List SearchResult) (acc : List (Nat × FusionEntry)) (r : SearchResult),
      (sem.map (·.chunk_id)).Nodup → r ∈ sem →
      dictFind r.chunk_id
          (sem.foldl
            (fun d x =>
              dictSet x.chunk_id
                ⟨x, x.similarity_score * wSem, 0, x.similarity_score * wSem⟩ d)
            acc)
        = some ⟨r, r.similarity_score * wSem, 0, r.similarity_score * wSem⟩ := by
  intro sem
  induction sem with
  | nil => intro acc r _ hr; cases hr
  | cons a rest ih =>
    intro acc r hnd hr
    rw [List.map_cons, List.nodup_cons] at hnd
    rw [List.foldl_cons]
    cases List.mem_cons.mp hr with
    | inl heq =>
      rw [heq]
      rw [foldl_dictFind_untouched _ a.chunk_id
          (fun d x hx => dictFind_dictSet_ne _ _ _ (Ne.symm hx) d) rest _
          (fun x hx he => hnd.1 (he ▸ List.mem_map_of_mem (·.chunk_id) hx)),
        dictFind_dictSet_self]
    | inr hr' => exact ih _ r hnd.2 hr'

/-- What the second loop stores for a vector result `r'` present in `vec`
(with distinct ids in `vec`): an update of the first loop's entry when the
chunk id was already present, a fresh vector-only entry otherwise. -/
theorem vectorPhase_find_aux (wVec : ℚ) :
    ∀ (vec : List SearchResult) (acc : List (Nat × FusionEntry)) (r' : SearchResult),
      (vec.map (·.chunk_id)).Nodup → r' ∈ vec →
      dictFind r'.chunk_id (vec.foldl (vectorStep wVec) acc)
        = some (match dictFind r'.chunk_id acc with
            | some e =>
              ⟨e.result, e.semantic_score, r'.similarity_score * wVec,
                e.combined_score + r'.similarity_score * wVec⟩
            | none =>
              ⟨r', 0, r'.similarity_score * wVec, r'.similarity_score * wVec⟩) := by
  intro vec
  induction vec with
  | nil => intro acc r' _ hr'; cases hr'
  | cons a rest ih =>
    intro acc r' hnd hr'
    rw [List.map_cons, List.nodup_cons] at hnd
    rw [List.foldl_cons]
    cases List.mem_cons.mp hr' with
    | inl heq =>
      rw [heq]
      rw [foldl_dictFind_untouched _ a.chunk_id
          (fun d x hx => vectorStep_find_ne wVec d x _ hx) rest _
          (fun x hx he => hnd.1 (he ▸ List.mem_map_of_mem (·.chunk_id) hx))]
      unfold vectorStep
      cases hf : dictFind a.chunk_id acc with
      | none =>
        rw [if_neg (by simp), dictFind_dictSet_self]
      | some e =>
        rw [if_pos (by rfl), dictFind_dictUpdate_self, hf, Option.map_some']
    | inr hr'' =>
      have hne : a.chunk_id ≠ r'.chunk_id := fun he =>
        hnd.1 (he ▸ List.mem_map_of_mem (·.chunk_id) hr'')
      rw [ih _ r' hnd.2 hr'', vectorStep_find_ne wVec acc a _ hne]

/-- C3 (amended): when each input list carries pairwise-distinct chunk ids,
the `combined_score` that `_combine_search_results` stores (and later ranks
by) is exactly `similarity * wSem` for a chunk only in the semantic list,
`similarity * wVec` for a chunk only in the vector list, and
`semScore * wSem + vecScore * wVec` for a chunk in both. -/
theorem combine_search_results_scores (sem vec : List SearchResult) (wSem wVec : ℚ)
    (hs : (sem.map (·.chunk_id)).Nodup) (hv : (vec.map (·.chunk_id)).Nodup) :
    (∀ r ∈ sem, (∀ r' ∈ vec, r'.chunk_id ≠ r.chunk_id) →
      (dictFind r.chunk_id (combinedDict sem vec wSem wVec)).map FusionEntry.combined_score
        = some (r.similarity_score * wSem)) ∧
    (∀ r' ∈ vec, (∀ r ∈ sem, r.chunk_id ≠ r'.chunk_id) →
      (dictFind r'.chunk_id (combinedDict sem vec wSem wVec)).map FusionEntry.combined_score
        = some (r'.similarity_score * wVec)) ∧
    (∀ r ∈ sem, ∀ r' ∈ vec, r'.chunk_id = r.chunk_id →
      (dictFind r.chunk_id (combinedDict sem vec wSem wVec)).map FusionEntry.combined_score
        = some (r.similarity_score * wSem + r'.similarity_score * wVec)) := by
  refine ⟨?_, ?_, ?_⟩
  · intro r hr hnot
    unfold combinedDict
    rw [foldl_dictFind_untouched _ r.chunk_id
        (fun d x hx => vectorStep_find_ne wVec d x _ hx) vec _ hnot]
    rw [show semanticPhase wSem sem
        = sem.foldl
            (fun d x =>
              dictSet x.chunk_id
                ⟨x, x.similarity_score * wSem, 0, x.similarity_score * wSem⟩ d)
            [] from rfl,
      semanticPhase_find_aux wSem sem [] r hs hr]
    rfl
  · intro r' hr' hnot
    unfold combinedDict
    rw [vectorPhase_find_aux wVec vec (semanticPhase wSem sem) r' hv hr']
    have hnone : dictFind r'.chunk_id (semanticPhase wSem sem) = none := by
      rw [show semanticPhase wSem sem
          = sem.foldl
              (fun d x =>
                dictSet x.chunk_id
                  ⟨x, x.similarity_score * wSem, 0, x.similarity_score * wSem⟩ d)
              [] from rfl,
        foldl_dictFind_untouched _ r'.chunk_id
          (fun d x hx => dictFind_dictSet_ne _ _ _ (Ne.symm hx) d) sem [] hnot]
      rfl
    rw [hnone]
    rfl
  · intro r hr r' hr' heq
    unfold combinedDict
    rw [← heq, vectorPhase_find_aux wVec vec (semanticPhase wSem sem) r' hv hr', heq]
    rw [show semanticPhase wSem sem
        = sem.foldl
            (fun d x =>
              dictSet x.chunk_id
                ⟨x, x.similarity_score * wSem, 0, x.similarity_score * wSem⟩ d)
            [] from rfl,
      semanticPhase_find_aux wSem sem [] r hs hr]
    rfl

/-- C3 counterexample: the claim quantifies over every pair of input lists,
but when a chunk id appears twice in the vector list its contributions
accumulate: semantic `[id 1, score 1]` with vector
`[id 1, score 1/2, id 1, score 1/2]` and weights `0.7/0.3` fuses to
`0.7 + 0.15 + 0.15 = 1`, not the claimed `1*0.7 + 0.5*0.3 = 0.85`. -/
theorem combine_search_results_scores_counterexample :
    (dictFind 1 (combinedDict [⟨1, ['x'], 1⟩]
        [⟨1, ['y'], 1 / 2⟩, ⟨1, ['z'], 1 / 2⟩] (7 / 10) (3 / 10))).map
      FusionEntry.combined_score = some 1 ∧
    (1 : ℚ) ≠ 1 * (7 / 10) + (1 / 2) * (3 / 10) := by
  constructor
  · norm_num [combinedDict, semanticPhase, vectorStep, dictSet, dictUpdate, dictFind,
      List.foldl_cons, List.foldl_nil]
  · norm_num

/-- C3 witness: the spec's scenario 3 — chunk 1 only semantic with score 1,
chunk 2 only vector with score 0.9, weights 0.7/0.3 — fuses to 0.7 and 0.27
respectively. -/
theorem combine_search_results_scores_witness :
    (dictFind 1 (combinedDict [⟨1, ['x'], 1⟩] [⟨2, ['y'], 9 / 10⟩]
        (7 / 10) (3 / 10))).map FusionEntry.combined_score = some (1 * (7 / 10)) ∧
    (dictFind 2 (combinedDict [⟨1, ['x'], 1⟩] [⟨2, ['y'], 9 / 10⟩]
        (7 / 10) (3 / 10))).map FusionEntry.combined_score = some ((9 / 10) * (3 / 10)) := by
  have h := combine_search_results_scores [⟨1, ['x'], 1⟩] [⟨2, ['y'], 9 / 10⟩]
    (7 / 10) (3 / 10) (by simp) (by simp)
  exact ⟨h.1 ⟨1, ['x'], 1⟩ (by simp) (by simp),
    h.2.1 ⟨2, ['y'], 9 / 10⟩ (by simp) (by simp)⟩

end RAG
